import Mathlib

/-!
Verification of the fz-moret plugin repository against its specification.

Part 1 embeds `validate_plugin.py` (the validation script shipped in the
repository).  The script inspects the filesystem, so the embedding passes an
explicit filesystem state to each function.

Part 2 models the generic parametric-study engine that the plugin feeds
(template scanner, variable expander, case compiler, output extractor, run
orchestrator).  The engine itself is not part of this repository's source —
only its callers and declarative descriptors are — so those definitions are
modelled from the specification text and are marked as such.
-/

/-- Python exceptions that can escape the validation script uncaught. -/
inductive PyError where
  | fileNotFoundError
  | jsonDecodeError
deriving DecidableEq

/-- Filesystem state as observed by `validate_plugin.py`: whether a path
exists, is a directory, parses as JSON, is executable, starts with a shebang,
and which top-level keys its JSON document has. -/
structure FileSystem where
  pathExists : String → Bool
  isDir : String → Bool
  validJson : String → Bool
  executable : String → Bool
  shebang : String → Bool
  jsonKeys : String → List String

/-- Embeds `validate_file_exists` (validate_plugin.py:12-19): returns whether
the path exists. -/
def validate_file_exists (fs : FileSystem) (p : String) : Bool :=
  fs.pathExists p

/-- Embeds `validate_json_file` (validate_plugin.py:21-33): `False` when the
file is missing or its JSON fails to parse (the `JSONDecodeError` is caught),
`True` otherwise. -/
def validate_json_file (fs : FileSystem) (p : String) : Bool :=
  if fs.pathExists p then (if fs.validJson p then true else false) else false

/-- Embeds `validate_shell_script` (validate_plugin.py:35-55): `False` only
when the file is missing.  The executables and shebang checks merely print;
the function returns `True` for every existing file. -/
def validate_shell_script (fs : FileSystem) (p : String) : Bool :=
  if fs.pathExists p then true else false

/-- The five keys `validate_model_json` and `test_model_files` look for. -/
def requiredModelKeys : List String :=
  ["id", "varprefix", "delim", "commentline", "output"]

/-- Embeds `validate_model_json` (validate_plugin.py:57-75): opens the file
(raising `FileNotFoundError` when absent), parses it (raising
`JSONDecodeError` on bad JSON), then reports each required key's presence.
Missing keys are only printed; the function never rejects a parsed document. -/
def validate_model_json (fs : FileSystem) (p : String) :
    Except PyError (List (String × Bool)) :=
  if fs.pathExists p then
    (if fs.validJson p then
      Except.ok (requiredModelKeys.map (fun k => (k, (fs.jsonKeys p).contains k)))
    else Except.error PyError.jsonDecodeError)
  else Except.error PyError.fileNotFoundError

/-- Embeds `validate_calculator_json` (validate_plugin.py:77-90): same shape
as `validate_model_json` with keys `uri` and `models`. -/
def validate_calculator_json (fs : FileSystem) (p : String) :
    Except PyError (List (String × Bool)) :=
  if fs.pathExists p then
    (if fs.validJson p then
      Except.ok (["uri", "models"].map (fun k => (k, (fs.jsonKeys p).contains k)))
    else Except.error PyError.jsonDecodeError)
  else Except.error PyError.fileNotFoundError

/-- Embeds `main` (validate_plugin.py:92-150).  Steps 1-4 accumulate
`all_valid` with `&=`; step 5 calls `validate_model_json` and
`validate_calculator_json` unconditionally, so their uncaught exceptions
abort `main` before the summary and the `return` statement. -/
def mainValidate (fs : FileSystem) : Except PyError Nat := do
  let dirsOk := fs.isDir ".fz" && fs.isDir ".fz/models" && fs.isDir ".fz/calculators"
  let a2 := dirsOk && validate_json_file fs ".fz/models/Moret.json"
  let a3 := a2 && validate_shell_script fs ".fz/calculators/Moret.sh"
  let a4 := a3 && validate_json_file fs ".fz/calculators/Localhost_Moret.json"
  let a5 := a4 && validate_file_exists fs "godiva.m5"
  let a6 := a5 && validate_file_exists fs "example_usage.py"
  let a7 := a6 && validate_file_exists fs "README.md"
  let a8 := a7 && validate_file_exists fs ".gitignore"
  let _ ← validate_model_json fs ".fz/models/Moret.json"
  let _ ← validate_calculator_json fs ".fz/calculators/Localhost_Moret.json"
  pure (if a8 then 0 else 1)

/-- A parsed model descriptor: its top-level keys and the number of entries
under its `output` mapping (`0` when `output` is absent or empty). -/
structure ModelDescriptor where
  keys : List String
  outputLen : Nat
deriving DecidableEq

/-- Embeds the acceptance condition of `test_model_files`
(tests/test_plugin.py:12-36) on an existing, parsed descriptor: every
required field must be present (`assert field in model`) and the `output`
mapping must be nonempty (`assert len(model['output']) > 0`). -/
def test_model_files_accepts (m : ModelDescriptor) : Bool :=
  requiredModelKeys.all (fun k => m.keys.contains k) && decide (0 < m.outputLen)

/-- A descriptor holding all five required keys but an empty `output`
mapping. -/
def descEmptyOutput : ModelDescriptor :=
  { keys := ["id", "varprefix", "delim", "commentline", "output"], outputLen := 0 }

/-- A filesystem on which every path validated by `main` exists, is a
directory where required, holds valid JSON with the expected keys — but
nothing is executable and nothing has a shebang. -/
def fsAllButExec : FileSystem where
  pathExists := fun _ => true
  isDir := fun _ => true
  validJson := fun _ => true
  executable := fun _ => false
  shebang := fun _ => false
  jsonKeys := fun p =>
    if p = ".fz/models/Moret.json" then requiredModelKeys else ["uri", "models"]

/-- A filesystem identical to `fsAllButExec` except that the model file
`.fz/models/Moret.json` is absent. -/
def fsNoModelFile : FileSystem where
  pathExists := fun p => !(p = ".fz/models/Moret.json")
  isDir := fun _ => true
  validJson := fun _ => true
  executable := fun _ => false
  shebang := fun _ => false
  jsonKeys := fun _ => ["uri", "models"]

/-- Modelled from the spec: the Model contract of §3/§6 — a variable prefix
(may be empty), a delimiter pair marking a variable reference, and a
comment-line marker.  The engine holding it is absent from src/ (the
repository only ships plugin descriptors and callers). -/
structure EngineModel where
  varpfx : List Char
  dopen : Char
  dclose : Char
  cmark : List Char

/-- The token that opens a variable reference: `prefix? open` (§4.1). -/
def startTok (m : EngineModel) : List Char :=
  m.varpfx ++ [m.dopen]

/-- Modelled from the spec: a line is skipped when it begins with the
comment marker (§4.1). -/
def isCommentLine (m : EngineModel) (line : List Char) : Bool :=
  m.cmark.isPrefixOf line

/-- Modelled from the spec: the scanner's syntax error for an opening
delimiter with no matching close on the line (§4.1); carries the offending
line. -/
structure TemplateSyntaxError where
  line : List Char
deriving DecidableEq

/-- Modelled from the spec: one left-to-right pass over a line collecting
`prefix? open name close` tokens (§4.1); an open token with no close on the
line is a `TemplateSyntaxError`.  The fuel argument only bounds recursion
and is in excess whenever it is at least the line length. -/
def scanLineF (m : EngineModel) : Nat → List Char → Except TemplateSyntaxError (List (List Char))
  | 0, _ => Except.ok []
  | _ + 1, [] => Except.ok []
  | fuel + 1, c :: cs =>
    if (startTok m).isPrefixOf (c :: cs) then
      match ((c :: cs).drop (startTok m).length).dropWhile (fun x => x ≠ m.dclose) with
      | [] => Except.error ⟨c :: cs⟩
      | _ :: tail =>
        (scanLineF m fuel tail).map
          (fun ns => ((c :: cs).drop (startTok m).length).takeWhile (fun x => x ≠ m.dclose) :: ns)
    else scanLineF m fuel cs

/-- Scans one line with enough fuel. -/
def scanLine (m : EngineModel) (s : List Char) : Except TemplateSyntaxError (List (List Char)) :=
  scanLineF m s.length s

/-- Modelled from the spec: scans every non-comment line in order (§4.1). -/
def scanLines (m : EngineModel) : List (List Char) → Except TemplateSyntaxError (List (List Char))
  | [] => Except.ok []
  | line :: rest =>
    if isCommentLine m line then scanLines m rest
    else do
      let ns ← scanLine m line
      let ms ← scanLines m rest
      Except.ok (ns ++ ms)

/-- Keeps the first occurrence of every element, preserving first-seen
order.  Fuel is in excess whenever it is at least the list length. -/
def firstSeenF {α : Type} [DecidableEq α] : Nat → List α → List α
  | 0, _ => []
  | _ + 1, [] => []
  | fuel + 1, a :: l => a :: firstSeenF fuel (l.filter (fun b => b ≠ a))

/-- First-seen deduplication (§4.1: distinct names, first-seen order). -/
def firstSeen {α : Type} [DecidableEq α] (l : List α) : List α :=
  firstSeenF l.length l

/-- Modelled from the spec: the Template Scanner (§4.1) — the distinct
variable names referenced, in first-seen order, skipping comment lines. -/
def scanTemplate (m : EngineModel) (tmpl : List (List Char)) :
    Except TemplateSyntaxError (List (List Char)) :=
  (scanLines m tmpl).map firstSeen

/-- Modelled from the spec: a variable's supplied value — a single scalar or
an ordered list of candidate values (§3). -/
inductive VarVal (V : Type) where
  | scalar (v : V)
  | vlist (vs : List V)
deriving DecidableEq

/-- One variable's binding inside a case assignment; `fromList` records
whether its spec entry was list-valued (those participate in case naming,
§4.2). -/
structure Binding (V : Type) where
  name : List Char
  val : V
  fromList : Bool
deriving DecidableEq

/-- Modelled from the spec: the Variable Expander (§4.2) — the ordered
Cartesian product of all list-valued variables with every scalar variable
held fixed; the empty spec yields exactly one (empty) assignment. -/
def expand {V : Type} : List (List Char × VarVal V) → List (List (Binding V))
  | [] => [[]]
  | (n, VarVal.scalar v) :: rest => (expand rest).map (fun a => ⟨n, v, false⟩ :: a)
  | (n, VarVal.vlist vs) :: rest =>
      vs.flatMap (fun v => (expand rest).map (fun a => ⟨n, v, true⟩ :: a))

/-- The sizes of the list-valued entries of a variable spec, in order. -/
def listSizes {V : Type} (spec : List (List Char × VarVal V)) : List Nat :=
  spec.filterMap (fun p => match p.2 with
    | VarVal.vlist vs => some vs.length
    | VarVal.scalar _ => none)

/-- The names of the list-valued entries of a variable spec, in order. -/
def listVarNames {V : Type} (spec : List (List Char × VarVal V)) : List (List Char) :=
  spec.filterMap (fun p => match p.2 with
    | VarVal.vlist _ => some p.1
    | VarVal.scalar _ => none)

/-- One `name=value` fragment of a case directory name (§4.2). -/
def fmtBinding {V : Type} (fmt : V → List Char) (b : Binding V) : List Char :=
  b.name ++ '=' :: fmt b.val

/-- Modelled from the spec: the case directory name — `name=value` for every
list-valued variable in discovery order (§4.2), joined with `,`.  The exact
numeric formatting is declared undocumented (§9), so it is the parameter
`fmt`. -/
def caseName {V : Type} (fmt : V → List Char) (a : List (Binding V)) : List Char :=
  [','].intercalate ((a.filter (fun b => b.fromList)).map (fmtBinding fmt))

/-- Splits one `name=value` fragment at its first `=`. -/
def splitEq (tok : List Char) : List Char × List Char :=
  (tok.takeWhile (fun c => c ≠ '='), (tok.dropWhile (fun c => c ≠ '=')).drop 1)

/-- Recovers the `(name, formatted value)` pairs from a case directory name
(the round trip of §8's naming property). -/
def decodeCaseName (s : List Char) : List (List Char × List Char) :=
  (s.splitOn ',').map splitEq

/-- Modelled from the spec: the Case Compiler's single left-to-right
substitution pass over one line (§4.3) — every recognized `prefix? open name
close` token whose name is assigned is replaced by the assignment's string
form; all other characters pass through unchanged.  The fuel argument only
bounds recursion and is in excess whenever it is at least the line length. -/
def substLineF (m : EngineModel) (asg : List (List Char × List Char)) :
    Nat → List Char → List Char
  | 0, s => s
  | _ + 1, [] => []
  | fuel + 1, c :: cs =>
    if (startTok m).isPrefixOf (c :: cs) then
      match ((c :: cs).drop (startTok m).length).dropWhile (fun x => x ≠ m.dclose) with
      | [] => c :: substLineF m asg fuel cs
      | _ :: tail =>
        match List.lookup (((c :: cs).drop (startTok m).length).takeWhile (fun x => x ≠ m.dclose)) asg with
        | some v => v ++ substLineF m asg fuel tail
        | none => c :: substLineF m asg fuel cs
    else c :: substLineF m asg fuel cs

/-- Substitutes one line with enough fuel. -/
def substLine (m : EngineModel) (asg : List (List Char × List Char)) (s : List Char) : List Char :=
  substLineF m asg s.length s

/-- Modelled from the spec: compiling a template line by line — comment
lines pass through unchanged, other lines get the substitution pass (§4.3). -/
def compileLines (m : EngineModel) (asg : List (List Char × List Char))
    (tmpl : List (List Char)) : List (List Char) :=
  tmpl.map (fun line => if isCommentLine m line then line else substLine m asg line)

/-- Modelled from the spec: a compiled case directory — the compiled input
plus a manifest of assignment and timestamp (§4.3). -/
structure CompiledCase where
  dir : List Char
  inputFile : List (List Char)
  manifestAsg : List (List Char × List Char)
  manifestTime : Nat
deriving DecidableEq

/-- Modelled from the spec: the Case Compiler (§4.3) — writes the compiled
text and the manifest into a given fresh case directory at a given time. -/
def compileCase (m : EngineModel) (tmpl : List (List Char))
    (asg : List (List Char × List Char)) (dir : List Char) (time : Nat) : CompiledCase :=
  ⟨dir, compileLines m asg tmpl, asg, time⟩

/-- The textual assignment of a case: each binding's name with its
formatted value (§4.3: the assignment's canonical string form). -/
def bindingsToAsg {V : Type} (fmt : V → List Char) (a : List (Binding V)) :
    List (List Char × List Char) :=
  a.map (fun b => (b.name, fmt b.val))

/-- Modelled from the spec: the compile-level study pipeline — expand the
variable spec, then name and compile every case in order (§2 data flow).
`fmtN` formats values inside case names, `fmtS` inside substituted text. -/
def runStudyCases {V : Type} (m : EngineModel) (fmtN fmtS : V → List Char)
    (tmpl : List (List Char)) (spec : List (List Char × VarVal V)) :
    List (List Char × List (List Char)) :=
  (expand spec).map (fun a => (caseName fmtN a, compileLines m (bindingsToAsg fmtS a) tmpl))

/-- A template with no variable reference: no non-comment line contains the
opening token anywhere. -/
def noVarRefs (m : EngineModel) (tmpl : List (List Char)) : Prop :=
  ∀ line ∈ tmpl, isCommentLine m line = false → ¬ (startTok m) <:+: line

/-- A decimal literal value (integer part and fraction digits), the flat
numeric value model the example study uses (`8.0`, `8.5`). -/
structure Dec where
  ip : Nat
  fd : List Nat
deriving DecidableEq

/-- The character of one decimal digit. -/
def digitChar (d : Nat) : Char :=
  Char.ofNat (48 + d)

/-- Modelled from the spec: the string form used in substituted text — the
full decimal literal (`SPHE 8.0` in §8's example). -/
def fmtSub (d : Dec) : List Char :=
  Nat.toDigits 10 d.ip ++ '.' :: d.fd.map digitChar

/-- Drops trailing zero digits of a fraction part. -/
def stripZeros (l : List Nat) : List Nat :=
  (l.reverse.dropWhile (fun d => d = 0)).reverse

/-- Modelled from the spec: the string form used in case directory names —
trailing zero decimals dropped (`radius=8` next to `radius=8.5` in §8's
example). -/
def fmtName (d : Dec) : List Char :=
  match stripZeros d.fd with
  | [] => Nat.toDigits 10 d.ip
  | t => Nat.toDigits 10 d.ip ++ '.' :: t.map digitChar

/-- Modelled from the spec: the Moret plugin's template convention as used
by §8's example — prefix `$`, delimiters `(` `)`, comment lines starting
with `*` (the template in example_usage.py comments with `*`). -/
def moretModel : EngineModel :=
  ⟨['$'], '(', ')', ['*']⟩

/-- The §8 example template: the line `SPHE $(radius)`. -/
def sphTemplate : List (List Char) :=
  ["SPHE $(radius)".toList]

/-- The §8 example variable spec: `radius` ranging over `[8.0, 8.5]`. -/
def sphSpec : List (List Char × VarVal Dec) :=
  [("radius".toList, VarVal.vlist [⟨8, [0]⟩, ⟨8, [5]⟩])]

/-- Modelled from the spec: the value type of an extraction rule — numeric
or textual (§4.5, glossary). -/
inductive VType where
  | numeric
  | txt
deriving DecidableEq

/-- Modelled from the spec: one extraction rule — a textual pattern plus a
value type (§4.5). -/
structure XRule where
  pat : List Char
  vtype : VType
deriving DecidableEq

/-- A parsed numeric literal tolerant of solver formatting: sign, integer
part, fraction digits, exponent (§4.5: exponent notation, fixed width). -/
structure NumLit where
  neg : Bool
  ip : Nat
  fd : List Nat
  ex : Int
deriving DecidableEq

/-- An extracted result value. -/
inductive XValue where
  | num (x : NumLit)
  | str (s : List Char)
deriving DecidableEq

/-- The natural number denoted by a digit string. -/
def digitsToNat (l : List Char) : Nat :=
  l.foldl (fun n c => 10 * n + (c.toNat - 48)) 0

/-- Modelled from the spec: numeric coercion of a matched token (§4.5) —
optional sign, digits, optional fraction, optional exponent; anything else
is a coercion failure, returned as `none`, never a crash. -/
def parseNum (s : List Char) : Option NumLit :=
  let (neg, s1) := match s with
    | '-' :: r => (true, r)
    | '+' :: r => (false, r)
    | r => (false, r)
  let ipd := s1.takeWhile Char.isDigit
  let s2 := s1.dropWhile Char.isDigit
  if ipd = [] then none else
  let (fdd, s3) := match s2 with
    | '.' :: r => (r.takeWhile Char.isDigit, r.dropWhile Char.isDigit)
    | r => ([], r)
  match s3 with
  | [] => some ⟨neg, digitsToNat ipd, fdd.map (fun c => c.toNat - 48), 0⟩
  | e :: r =>
    if e = 'e' ∨ e = 'E' then
      let (eneg, r1) := match r with
        | '-' :: rr => (true, rr)
        | '+' :: rr => (false, rr)
        | rr => (false, rr)
      let exd := r1.takeWhile Char.isDigit
      let r2 := r1.dropWhile Char.isDigit
      if exd = [] ∨ r2 ≠ [] then none
      else some ⟨neg, digitsToNat ipd, fdd.map (fun c => c.toNat - 48),
        if eneg then -(digitsToNat exd : Int) else (digitsToNat exd : Int)⟩
    else none

/-- Returns the text after the first occurrence of `pat`, or `none` when the
pattern does not occur. -/
def findSub (pat : List Char) : List Char → Option (List Char)
  | [] => if pat.isEmpty then some [] else none
  | c :: cs =>
    if pat.isPrefixOf (c :: cs) then some ((c :: cs).drop pat.length)
    else findSub pat cs

/-- The first whitespace-delimited token of a string. -/
def nextToken (s : List Char) : List Char :=
  (s.dropWhile (fun c => c = ' ')).takeWhile (fun c => c ≠ ' ')

/-- Modelled from the spec: evaluating one extraction rule on raw output
(§4.5) — no pattern match yields `none` (the missing-value marker), and a
matched token that fails numeric coercion also yields `none`. -/
def extractOne (r : XRule) (out : List Char) : Option XValue :=
  match findSub r.pat out with
  | none => none
  | some rest =>
    match r.vtype with
    | VType.numeric => (parseNum (nextToken rest)).map XValue.num
    | VType.txt => some (XValue.str (nextToken rest))

/-- Modelled from the spec: the Output Extractor (§4.5) — every declared
rule evaluated independently on the same raw output. -/
def extractAll (rules : List (List Char × XRule)) (out : List Char) :
    List (List Char × Option XValue) :=
  rules.map (fun p => (p.1, extractOne p.2 out))

/-- Modelled from the spec: the reasons a case records on failure (§4.6,
§5, §7). -/
inductive FailReason where
  | noResultsExtracted
  | cancelled
  | compileError
deriving DecidableEq

/-- Modelled from the spec: the per-case lifecycle states (§4.6). -/
inductive CaseStatus where
  | pending
  | compiled
  | running
  | done
  | failed (r : FailReason)
  | timedOut
deriving DecidableEq

/-- Modelled from the spec: the status a finished case gets from extraction
(§4.5) — `Failed NoResultsExtracted` exactly when every declared result is
missing, `Done` otherwise. -/
def statusAfterExtract (rules : List (List Char × XRule)) (out : List Char) : CaseStatus :=
  if (extractAll rules out).all (fun p => p.2.isNone) then
    CaseStatus.failed FailReason.noResultsExtracted
  else CaseStatus.done

/-- A terminal case outcome: final status plus extracted results (values or
missing markers). -/
structure CaseOutcome where
  status : CaseStatus
  results : List (List Char × Option XValue)
deriving DecidableEq

/-- Modelled from the spec: the orchestrator's index-addressed results
arena (§9) — an array sized at study creation, each completion writing the
slot of its case index, in completion order. -/
def assembleTable (n : Nat) (comps : List (Nat × CaseOutcome)) : List (Option CaseOutcome) :=
  comps.foldl (fun tbl e => tbl.set e.1 (some e.2)) (List.replicate n none)

/-- Modelled from the spec: the final results table (§4.6) — one row per
requested case in the Variable Expander's order, pairing the case's
assignment with its outcome. -/
def resultsTable {A : Type} (cases : List A) (comps : List (Nat × CaseOutcome)) :
    List (A × Option CaseOutcome) :=
  cases.zip (assembleTable cases.length comps)

/-- Whether a spec entry is list-valued. -/
def isListB {V : Type} : VarVal V → Bool
  | VarVal.vlist _ => true
  | VarVal.scalar _ => false

/-- A descriptor holding all five required keys and a nonempty `output`
mapping. -/
def descGood : ModelDescriptor :=
  { keys := requiredModelKeys, outputLen := 2 }

/-- A template with no variable reference, for exercising the
zero-variable study. -/
def plainTemplate : List (List Char) :=
  ["MORET_BEGIN".toList, "TERM KEFF".toList]

/-- A two-variable spec over booleans: one list-valued, one scalar. -/
def cspec : List (List Char × VarVal Bool) :=
  [(['x'], VarVal.vlist [true, false]), (['y'], VarVal.scalar false)]

/-- A concrete injective boolean formatter for exercising case naming. -/
def bfmt (b : Bool) : List Char :=
  if b then ['1'] else ['0']

/-- A one-variable list-valued spec over booleans. -/
def bspec : List (List Char × VarVal Bool) :=
  [(['r'], VarVal.vlist [true, false])]

/-- The §8 extraction example's rule: numeric value following `KEFF =`. -/
def keffRule : XRule :=
  ⟨"KEFF =".toList, VType.numeric⟩

/-- A one-rule output mapping binding `mean_keff` to `keffRule`. -/
def keffRules : List (List Char × XRule) :=
  [("mean_keff".toList, keffRule)]

/-- Solver output containing `KEFF = 0.99231`. -/
def keffOut : List Char :=
  "KEFF = 0.99231".toList

/-- A concrete outcome per case index: case 0 done, the others failed. -/
def sampleOutcome (i : Nat) : CaseOutcome :=
  if i = 0 then ⟨CaseStatus.done, []⟩ else ⟨CaseStatus.failed FailReason.cancelled, []⟩

/-- Two case completions arriving in reverse order. -/
def sampleComps : List (Nat × CaseOutcome) :=
  [(1, sampleOutcome 1), (0, sampleOutcome 0)]

/-- C9: when the model file `.fz/models/Moret.json` is absent, `main` does
not return exit code 1: `validate_json_file` records the failure, but the
unconditional `validate_model_json` call raises an uncaught
`FileNotFoundError`, so the summary and the return statement are never
reached. -/
theorem main_raises_when_model_file_absent (fs : FileSystem)
    (h : fs.pathExists ".fz/models/Moret.json" = false) :
    validate_json_file fs ".fz/models/Moret.json" = false ∧
    mainValidate fs = Except.error PyError.fileNotFoundError ∧
    mainValidate fs ≠ Except.ok 1 := by
  refine ⟨?_, ?_, ?_⟩ <;>
    simp [validate_json_file, mainValidate, validate_model_json, h, Bind.bind, Except.bind]

/-- Witness for C9 on a concrete filesystem lacking the model file. -/
theorem main_raises_when_model_file_absent_witness :
    mainValidate fsNoModelFile = Except.error PyError.fileNotFoundError :=
  (main_raises_when_model_file_absent fsNoModelFile (by decide)).2.1

/-- C10: `validate_shell_script` returns `True` for every existing path,
executable or not; consequently `main` reports success and returns 0 on a
filesystem where the calculator launcher exists but is not executable. -/
theorem shell_script_check_ignores_executable :
    (∀ (fs : FileSystem) (p : String), fs.pathExists p = true →
      validate_shell_script fs p = true) ∧
    fsAllButExec.executable ".fz/calculators/Moret.sh" = false ∧
    mainValidate fsAllButExec = Except.ok 0 := by
  refine ⟨fun fs p h => by simp [validate_shell_script, h], rfl, ?_⟩
  rfl

/-- Witness for C10's universally quantified part on a concrete
filesystem. -/
theorem shell_script_check_ignores_executable_witness :
    validate_shell_script fsAllButExec ".fz/calculators/Moret.sh" = true :=
  shell_script_check_ignores_executable.1 fsAllButExec ".fz/calculators/Moret.sh" rfl

/-- C7 counterexample: a descriptor holding all five required fields but an
empty `output` mapping is rejected by `test_model_files`, so acceptance is
not equivalent to the five fields being present. -/
theorem model_validation_iff_five_fields_counterexample :
    (∀ k ∈ requiredModelKeys, descEmptyOutput.keys.contains k = true) ∧
    test_model_files_accepts descEmptyOutput = false := by
  decide

/-- C7 amended: `test_model_files` accepts a parsed descriptor iff all five
required fields are present and the `output` mapping is nonempty, while
`validate_model_json` merely reports key presence and accepts every
descriptor file that exists and parses as JSON. -/
theorem model_descriptor_validation (m : ModelDescriptor) (fs : FileSystem)
    (p : String) (hex : fs.pathExists p = true) (hjson : fs.validJson p = true) :
    (test_model_files_accepts m = true ↔
      ((∀ k ∈ requiredModelKeys, m.keys.contains k = true) ∧ 0 < m.outputLen)) ∧
    validate_model_json fs p =
      Except.ok (requiredModelKeys.map (fun k => (k, (fs.jsonKeys p).contains k))) := by
  constructor
  · simp [test_model_files_accepts, List.all_eq_true]
  · simp [validate_model_json, hex, hjson]

/-- Witness for C7's amended theorem on a concrete descriptor and
filesystem. -/
theorem model_descriptor_validation_witness :
    test_model_files_accepts descGood = true ↔
      ((∀ k ∈ requiredModelKeys, descGood.keys.contains k = true) ∧ 0 < descGood.outputLen) :=
  (model_descriptor_validation descGood fsAllButExec ".fz/models/Moret.json" rfl rfl).1

/-- C5: case compilation is idempotent — compiling the same assignment
twice, into two fresh case directories at two times, yields byte-identical
compiled input files. -/
theorem compile_case_idempotent (m : EngineModel) (tmpl : List (List Char))
    (asg : List (List Char × List Char)) (d1 d2 : List Char) (t1 t2 : Nat) :
    (compileCase m tmpl asg d1 t1).inputFile = (compileCase m tmpl asg d2 t2).inputFile :=
  rfl

/-- C8: the example study — template `SPHE $(radius)` with spec
`{radius: [8.0, 8.5]}` — produces exactly two cases named `radius=8` and
`radius=8.5`, compiled to `SPHE 8.0` and `SPHE 8.5`. -/
theorem example_study_two_cases :
    runStudyCases moretModel fmtName fmtSub sphTemplate sphSpec =
      [("radius=8".toList, ["SPHE 8.0".toList]),
       ("radius=8.5".toList, ["SPHE 8.5".toList])] := by
  decide

/-- Flat-mapping a constant-length function multiplies lengths. -/
theorem length_flatMap_const {α β : Type} (l : List α) (f : α → List β) (k : Nat)
    (h : ∀ a, (f a).length = k) : (l.flatMap f).length = l.length * k := by
  induction l with
  | nil => simp
  | cons a t ih =>
    simp only [List.flatMap_cons, List.length_append, ih, h a, List.length_cons]
    ring

/-- The expander produces as many cases as the product of the list sizes. -/
theorem expand_length {V : Type} (spec : List (List Char × VarVal V)) :
    (expand spec).length = (listSizes spec).prod := by
  induction spec with
  | nil => rfl
  | cons p rest ih =>
    obtain ⟨n, v | vs⟩ := p
    · simpa [expand, listSizes] using ih
    · simp only [expand, listSizes, List.filterMap_cons]
      rw [length_flatMap_const vs _ (expand rest).length (fun v => by simp)]
      simp [listSizes, ih, Nat.mul_comm]

/-- Every produced assignment binds exactly the spec's variables, in the
spec's order, with the spec's list/scalar shape. -/
theorem expand_shape {V : Type} (spec : List (List Char × VarVal V)) :
    ∀ a ∈ expand spec, a.map (fun b => (b.name, b.fromList)) =
      spec.map (fun p => (p.1, isListB p.2)) := by
  induction spec with
  | nil =>
    intro a ha
    simp [expand] at ha
    simp [ha]
  | cons p rest ih =>
    obtain ⟨n, v | vs⟩ := p <;> intro a ha
    · simp [expand] at ha
      obtain ⟨a', ha', rfl⟩ := ha
      simp [isListB, ih a' ha']
    · simp [expand, List.mem_flatMap] at ha
      obtain ⟨w, hw, a', ha', rfl⟩ := ha
      simp [isListB, ih a' ha']

/-- Every produced assignment holds each scalar variable fixed at its
scalar value. -/
theorem expand_scalars {V : Type} (spec : List (List Char × VarVal V)) :
    ∀ a ∈ expand spec, ∀ p ∈ spec, ∀ v, p.2 = VarVal.scalar v →
      (⟨p.1, v, false⟩ : Binding V) ∈ a := by
  induction spec with
  | nil =>
    intro a ha p hp
    simp at hp
  | cons q rest ih =>
    obtain ⟨n, w | ws⟩ := q <;> intro a ha p hp v hv
    · simp [expand] at ha
      obtain ⟨a', ha', rfl⟩ := ha
      rcases List.mem_cons.1 hp with h | h
      · subst h
        simp only at hv
        rw [VarVal.scalar.injEq] at hv
        subst hv
        exact List.mem_cons_self _ _
      · exact List.mem_cons_of_mem _ (ih a' ha' p h v hv)
    · simp [expand, List.mem_flatMap] at ha
      obtain ⟨w, hw, a', ha', rfl⟩ := ha
      rcases List.mem_cons.1 hp with h | h
      · subst h
        simp at hv
      · exact List.mem_cons_of_mem _ (ih a' ha' p h v hv)

/-- C1: the Variable Expander produces exactly the product of the
list-valued sizes many cases (so one list of n values among scalars gives n
cases), each assigning every spec variable in spec order and holding every
scalar variable fixed. -/
theorem variable_expander_cases {V : Type} (spec : List (List Char × VarVal V)) :
    (expand spec).length = (listSizes spec).prod ∧
    (∀ a ∈ expand spec, a.map (fun b => (b.name, b.fromList)) =
      spec.map (fun p => (p.1, isListB p.2))) ∧
    (∀ a ∈ expand spec, ∀ p ∈ spec, ∀ v, p.2 = VarVal.scalar v →
      (⟨p.1, v, false⟩ : Binding V) ∈ a) :=
  ⟨expand_length spec, expand_shape spec, expand_scalars spec⟩

/-- Witness for C1 on a concrete two-variable spec. -/
theorem variable_expander_cases_witness :
    ([⟨['x'], true, true⟩, ⟨['y'], false, false⟩] : List (Binding Bool)).map
        (fun b => (b.name, b.fromList)) =
      cspec.map (fun p => (p.1, isListB p.2)) :=
  (variable_expander_cases cspec).2.1 _ (by decide)

/-- A word absent from a list is absent from its tail. -/
theorem not_infix_of_cons {α : Type} {t cs : List α} {c : α}
    (h : ¬ t <:+: c :: cs) : ¬ t <:+: cs :=
  fun hi => h (List.infix_cons hi)

/-- A word absent from a list is not a prefix of it. -/
theorem isPrefixOf_eq_false_of_not_infix {t s : List Char} (h : ¬ t <:+: s) :
    t.isPrefixOf s = false := by
  rw [Bool.eq_false_iff]
  intro hp
  exact h (List.IsPrefix.isInfix (List.isPrefixOf_iff_prefix.1 hp))

/-- A line that nowhere contains the opening token passes through the
substitution pass unchanged, for any fuel. -/
theorem substLineF_no_tok (m : EngineModel) (asg : List (List Char × List Char)) :
    ∀ (fuel : Nat) (s : List Char), ¬ (startTok m) <:+: s →
      substLineF m asg fuel s = s := by
  intro fuel
  induction fuel with
  | zero => intro s _; rfl
  | succ k ih =>
    intro s hs
    match s with
    | [] => rfl
    | c :: cs =>
      have hb : (startTok m).isPrefixOf (c :: cs) = false :=
        isPrefixOf_eq_false_of_not_infix hs
      simp [substLineF, hb, ih cs (not_infix_of_cons hs)]

/-- A line that nowhere contains the opening token scans to no variables,
for any fuel. -/
theorem scanLineF_no_tok (m : EngineModel) :
    ∀ (fuel : Nat) (s : List Char), ¬ (startTok m) <:+: s →
      scanLineF m fuel s = Except.ok [] := by
  intro fuel
  induction fuel with
  | zero => intro s _; rfl
  | succ k ih =>
    intro s hs
    match s with
    | [] => rfl
    | c :: cs =>
      have hb : (startTok m).isPrefixOf (c :: cs) = false :=
        isPrefixOf_eq_false_of_not_infix hs
      simp [scanLineF, hb, ih cs (not_infix_of_cons hs)]

/-- Scanning a template with no variable reference raises no error and
finds nothing. -/
theorem scanLines_no_refs (m : EngineModel) (tmpl : List (List Char))
    (h : noVarRefs m tmpl) : scanLines m tmpl = Except.ok [] := by
  induction tmpl with
  | nil => rfl
  | cons line rest ih =>
    have hrest : noVarRefs m rest := fun l hl => h l (List.mem_cons_of_mem _ hl)
    by_cases hc : isCommentLine m line
    · simp [scanLines, hc, ih hrest]
    · have hline : ¬ (startTok m) <:+: line :=
        h line (List.mem_cons_self _ _) (by simpa using hc)
      simp [scanLines, hc, scanLine, scanLineF_no_tok m line.length line hline,
        ih hrest, Bind.bind, Except.bind]

/-- Compiling a template with no variable reference reproduces it
byte-for-byte. -/
theorem compileLines_no_refs (m : EngineModel) (asg : List (List Char × List Char))
    (tmpl : List (List Char)) (h : noVarRefs m tmpl) :
    compileLines m asg tmpl = tmpl := by
  induction tmpl with
  | nil => rfl
  | cons line rest ih =>
    have hrest : noVarRefs m rest := fun l hl => h l (List.mem_cons_of_mem _ hl)
    have htail := ih hrest
    simp only [compileLines, List.map_cons] at htail ⊢
    rw [htail]
    by_cases hc : isCommentLine m line
    · simp [hc]
    · have hline : ¬ (startTok m) <:+: line :=
        h line (List.mem_cons_self _ _) (by simpa using hc)
      simp [hc, substLine, substLineF_no_tok m asg line.length line hline]

/-- C4: on a template containing zero variable references the Template
Scanner returns the empty set without error, and a study over it produces
exactly one case whose compiled output is identical to the template. -/
theorem zero_variable_template {V : Type} (m : EngineModel) (fmtN fmtS : V → List Char)
    (tmpl : List (List Char)) (h : noVarRefs m tmpl) :
    scanTemplate m tmpl = Except.ok [] ∧
    runStudyCases m fmtN fmtS tmpl [] = [([], tmpl)] := by
  constructor
  · simp [scanTemplate, scanLines_no_refs m tmpl h, Except.map, firstSeen, firstSeenF]
  · simp [runStudyCases, expand, caseName, bindingsToAsg, List.intercalate,
      compileLines_no_refs m _ tmpl h]

/-- Witness for C4 on a concrete reference-free template. -/
theorem zero_variable_template_witness :
    scanTemplate moretModel plainTemplate = Except.ok [] ∧
    runStudyCases moretModel fmtName fmtSub plainTemplate [] = [([], plainTemplate)] :=
  zero_variable_template moretModel fmtName fmtSub plainTemplate
    (by unfold noVarRefs; decide)

/-- C3: the Output Extractor evaluates each rule independently — every
declared result gets exactly one entry, a rule whose pattern does not match
yields the missing marker `none` for that result only, a matched token
failing numeric coercion also yields `none` rather than an error, and the
case status becomes `Failed NoResultsExtracted` iff every declared result
is missing. -/
theorem output_extractor_independent (rules : List (List Char × XRule)) (out : List Char) :
    ((extractAll rules out).length = rules.length) ∧
    (∀ n r, (n, r) ∈ rules → (n, extractOne r out) ∈ extractAll rules out) ∧
    (∀ n r, (n, r) ∈ rules → findSub r.pat out = none →
      (n, (none : Option XValue)) ∈ extractAll rules out) ∧
    (∀ n r rest, (n, r) ∈ rules → r.vtype = VType.numeric →
      findSub r.pat out = some rest → parseNum (nextToken rest) = none →
      (n, (none : Option XValue)) ∈ extractAll rules out) ∧
    (statusAfterExtract rules out = CaseStatus.failed FailReason.noResultsExtracted ↔
      ∀ p ∈ extractAll rules out, p.2 = none) := by
  refine ⟨by simp [extractAll], ?_, ?_, ?_, ?_⟩
  · intro n r hm
    exact List.mem_map.2 ⟨(n, r), hm, rfl⟩
  · intro n r hm hf
    refine List.mem_map.2 ⟨(n, r), hm, ?_⟩
    simp [extractOne, hf]
  · intro n r rest hm hty hf hp
    refine List.mem_map.2 ⟨(n, r), hm, ?_⟩
    simp [extractOne, hf, hty, hp]
  · by_cases hall : (extractAll rules out).all (fun p => p.2.isNone) = true
    · rw [statusAfterExtract, if_pos hall]
      simp only [List.all_eq_true, Option.isNone_iff_eq_none] at hall
      exact iff_of_true rfl hall
    · rw [statusAfterExtract, if_neg hall]
      simp only [List.all_eq_true, Option.isNone_iff_eq_none] at hall
      exact iff_of_false (by simp) hall

/-- Witness for C3 on the §8 extraction example. -/
theorem output_extractor_independent_witness :
    ("mean_keff".toList, extractOne keffRule keffOut) ∈ extractAll keffRules keffOut :=
  (output_extractor_independent keffRules keffOut).2.1 "mean_keff".toList keffRule
    (by decide)

/-- Writing completions into the arena preserves its size. -/
theorem foldlSet_length (comps : List (Nat × CaseOutcome)) :
    ∀ arr : List (Option CaseOutcome),
      (comps.foldl (fun tbl e => tbl.set e.1 (some e.2)) arr).length = arr.length := by
  induction comps with
  | nil => intro arr; rfl
  | cons e rest ih =>
    intro arr
    simp [List.foldl_cons, ih, List.length_set]

/-- A slot no completion addresses is left as initialized. -/
theorem foldlSet_getElem_not_mem (comps : List (Nat × CaseOutcome)) :
    ∀ (arr : List (Option CaseOutcome)) (i : Nat), i ∉ comps.map Prod.fst →
      (comps.foldl (fun tbl e => tbl.set e.1 (some e.2)) arr)[i]? = arr[i]? := by
  induction comps with
  | nil => intro arr i _; rfl
  | cons e rest ih =>
    intro arr i hi
    simp only [List.map_cons, List.mem_cons, not_or] at hi
    simp only [List.foldl_cons]
    rw [ih _ i hi.2, List.getElem?_set_ne (fun hji => hi.1 hji.symm)]

/-- With no duplicate case index among the completions, each addressed slot
holds its completion's outcome, whatever the completion order. -/
theorem foldlSet_getElem_mem (comps : List (Nat × CaseOutcome)) :
    ∀ (arr : List (Option CaseOutcome)) (i : Nat) (o : CaseOutcome),
      (comps.map Prod.fst).Nodup → (i, o) ∈ comps → i < arr.length →
      (comps.foldl (fun tbl e => tbl.set e.1 (some e.2)) arr)[i]? = some (some o) := by
  induction comps with
  | nil =>
    intro arr i o _ hm _
    simp at hm
  | cons e rest ih =>
    intro arr i o hnd hm hlen
    simp only [List.map_cons, List.nodup_cons] at hnd
    simp only [List.foldl_cons]
    rcases List.mem_cons.1 hm with h | h
    · have he : e = (i, o) := h.symm
      subst he
      rw [foldlSet_getElem_not_mem rest _ i hnd.1]
      exact List.getElem?_set_self hlen
    · exact ih _ i o hnd.2 h (by rw [List.length_set]; exact hlen)

/-- C2: when the completions are any permutation of one outcome per case
index, the final results table has exactly one row per requested case, rows
appear in the Variable Expander's original order, every row carries its
case's assignment and outcome, and the table does not depend on the
completion order. -/
theorem results_table_ordered {A : Type} (cases : List A) (f : Nat → CaseOutcome)
    (comps : List (Nat × CaseOutcome))
    (hperm : comps.Perm ((List.range cases.length).map (fun i => (i, f i)))) :
    assembleTable cases.length comps = (List.range cases.length).map (fun i => some (f i)) ∧
    resultsTable cases comps = cases.zip ((List.range cases.length).map (fun i => some (f i))) ∧
    (resultsTable cases comps).length = cases.length := by
  have hkeys : (comps.map Prod.fst).Perm (List.range cases.length) := by
    have h := hperm.map Prod.fst
    simpa [List.map_map, Function.comp_def] using h
  have hnd : (comps.map Prod.fst).Nodup := hkeys.nodup_iff.2 (List.nodup_range _)
  have hmain : assembleTable cases.length comps =
      (List.range cases.length).map (fun i => some (f i)) := by
    apply List.ext_getElem?
    intro i
    by_cases hi : i < cases.length
    · have hmem : (i, f i) ∈ comps :=
        hperm.mem_iff.2 (List.mem_map.2 ⟨i, List.mem_range.2 hi, rfl⟩)
      rw [assembleTable,
        foldlSet_getElem_mem comps _ i (f i) hnd hmem (by simpa using hi)]
      simp [List.getElem?_map, List.getElem?_range hi]
    · rw [List.getElem?_eq_none (by rw [assembleTable, foldlSet_length]; simpa using Nat.le_of_not_lt hi),
        List.getElem?_eq_none (by simpa using Nat.le_of_not_lt hi)]
  refine ⟨hmain, ?_, ?_⟩
  · rw [resultsTable, hmain]
  · simp [resultsTable, List.length_zip, assembleTable, foldlSet_length]

/-- Witness for C2 on two cases completing in reverse order. -/
theorem results_table_ordered_witness :
    assembleTable ([10, 20] : List Nat).length sampleComps =
      (List.range ([10, 20] : List Nat).length).map (fun i => some (sampleOutcome i)) :=
  (results_table_ordered [10, 20] sampleOutcome sampleComps (by decide)).1

/-- `takeWhile` up to the first `=` recovers an `=`-free name. -/
theorem takeWhile_name_append (n w : List Char) (h : '=' ∉ n) :
    (n ++ '=' :: w).takeWhile (fun c => c ≠ '=') = n := by
  induction n with
  | nil => simp
  | cons a t ih =>
    simp only [List.mem_cons, not_or] at h
    have ha : (a = '=') = False := eq_false (fun he => h.1 he.symm)
    simp [List.takeWhile_cons, ha]
    simpa using ih h.2

/-- `dropWhile` up to the first `=` leaves the value of an `=`-free name. -/
theorem dropWhile_name_append (n w : List Char) (h : '=' ∉ n) :
    (n ++ '=' :: w).dropWhile (fun c => c ≠ '=') = '=' :: w := by
  induction n with
  | nil => simp
  | cons a t ih =>
    simp only [List.mem_cons, not_or] at h
    have ha : (a = '=') = False := eq_false (fun he => h.1 he.symm)
    simp [List.dropWhile_cons, ha]
    simpa using ih h.2

/-- Splitting a formatted binding at its first `=` recovers name and
formatted value. -/
theorem splitEq_fmtBinding {V : Type} (fmt : V → List Char) (b : Binding V)
    (h : '=' ∉ b.name) : splitEq (fmtBinding fmt b) = (b.name, fmt b.val) := by
  unfold splitEq fmtBinding
  rw [takeWhile_name_append _ _ h, dropWhile_name_append _ _ h]
  rfl

/-- The list-valued bindings of any produced assignment carry exactly the
spec's list-valued names, in order. -/
theorem expand_filter_names {V : Type} (spec : List (List Char × VarVal V)) :
    ∀ a ∈ expand spec, (a.filter (fun b => b.fromList)).map (fun b => b.name) =
      listVarNames spec := by
  induction spec with
  | nil =>
    intro a ha
    simp [expand] at ha
    simp [ha, listVarNames]
  | cons p rest ih =>
    obtain ⟨n, v | vs⟩ := p <;> intro a ha
    · simp [expand] at ha
      obtain ⟨a', ha', rfl⟩ := ha
      simp [List.filter_cons, listVarNames, ih a' ha']
    · simp [expand, List.mem_flatMap] at ha
      obtain ⟨w, hw, a', ha', rfl⟩ := ha
      simp [List.filter_cons, listVarNames, ih a' ha']

/-- Two produced assignments agreeing on their list-valued values are the
same assignment (scalars are held fixed by the spec). -/
theorem expand_determined {V : Type} (spec : List (List Char × VarVal V)) :
    ∀ a1 ∈ expand spec, ∀ a2 ∈ expand spec,
      (a1.filter (fun b => b.fromList)).map (fun b => b.val) =
        (a2.filter (fun b => b.fromList)).map (fun b => b.val) → a1 = a2 := by
  induction spec with
  | nil =>
    intro a1 h1 a2 h2 _
    simp [expand] at h1 h2
    rw [h1, h2]
  | cons p rest ih =>
    obtain ⟨n, v | vs⟩ := p <;> intro a1 h1 a2 h2 heq
    · simp [expand] at h1 h2
      obtain ⟨a1', h1', rfl⟩ := h1
      obtain ⟨a2', h2', rfl⟩ := h2
      simp only [List.filter_cons] at heq
      rw [if_neg (by simp)] at heq
      rw [if_neg (by simp)] at heq
      rw [ih a1' h1' a2' h2' heq]
    · simp [expand, List.mem_flatMap] at h1 h2
      obtain ⟨w1, hw1, a1', h1', rfl⟩ := h1
      obtain ⟨w2, hw2, a2', h2', rfl⟩ := h2
      simp only [List.filter_cons] at heq
      rw [if_pos (by simp)] at heq
      rw [if_pos (by simp)] at heq
      simp only [List.map_cons, List.cons.injEq] at heq
      obtain ⟨rfl, heq'⟩ := heq
      rw [ih a1' h1' a2' h2' heq']

/-- Every binding of a produced assignment is named by some spec entry. -/
theorem expand_binding_name_mem {V : Type} (spec : List (List Char × VarVal V))
    (a : List (Binding V)) (ha : a ∈ expand spec) (b : Binding V) (hb : b ∈ a) :
    ∃ p ∈ spec, p.1 = b.name := by
  have h := expand_shape spec a ha
  have hmem : (b.name, b.fromList) ∈ spec.map (fun p => (p.1, isListB p.2)) := by
    rw [← h]
    exact List.mem_map.2 ⟨b, hb, rfl⟩
  obtain ⟨p, hp, he⟩ := List.mem_map.1 hmem
  exact ⟨p, hp, (Prod.ext_iff.1 he).1⟩

/-- Decoding a case name recovers each list-valued binding's name and
formatted value, provided names and formatted values avoid the separator
characters. -/
theorem decode_caseName {V : Type} (fmt : V → List Char) (a : List (Binding V))
    (hne : a.filter (fun b => b.fromList) ≠ [])
    (hc : ∀ b ∈ a, b.fromList = true → ',' ∉ b.name ∧ '=' ∉ b.name ∧ ',' ∉ fmt b.val) :
    decodeCaseName (caseName fmt a) =
      (a.filter (fun b => b.fromList)).map (fun b => (b.name, fmt b.val)) := by
  have hmem : ∀ b ∈ a.filter (fun b => b.fromList),
      ',' ∉ b.name ∧ '=' ∉ b.name ∧ ',' ∉ fmt b.val := by
    intro b hb
    rw [List.mem_filter] at hb
    exact hc b hb.1 (by simpa using hb.2)
  have hsep : ∀ t ∈ (a.filter (fun b => b.fromList)).map (fmtBinding fmt), ',' ∉ t := by
    intro t ht
    obtain ⟨b, hb, rfl⟩ := List.mem_map.1 ht
    have h := hmem b hb
    intro hm
    rcases List.mem_append.1 hm with h1 | h1
    · exact h.1 h1
    · rcases List.mem_cons.1 h1 with h2 | h2
      · exact absurd h2 (by decide)
      · exact h.2.2 h2
  rw [decodeCaseName, caseName,
    List.splitOn_intercalate _ ',' hsep (by simpa using hne), List.map_map]
  apply List.map_congr_left
  intro b hb
  exact splitEq_fmtBinding fmt b (hmem b hb).2.1

/-- C6: case naming is injective and round-trippable — for any injective,
separator-free value formatter, distinct assignments of one study get
distinct case directory names, and the list-valued part of the assignment
is recoverable from the name. -/
theorem case_naming_injective {V : Type} (fmt : V → List Char)
    (spec : List (List Char × VarVal V))
    (hinj : Function.Injective fmt)
    (hfc : ∀ v : V, ',' ∉ fmt v)
    (hn : ∀ p ∈ spec, ',' ∉ p.1 ∧ '=' ∉ p.1)
    (hlv : listVarNames spec ≠ []) :
    (∀ a ∈ expand spec, decodeCaseName (caseName fmt a) =
      (a.filter (fun b => b.fromList)).map (fun b => (b.name, fmt b.val))) ∧
    (∀ a1 ∈ expand spec, ∀ a2 ∈ expand spec,
      caseName fmt a1 = caseName fmt a2 → a1 = a2) := by
  have hca : ∀ a ∈ expand spec, ∀ b ∈ a, b.fromList = true →
      ',' ∉ b.name ∧ '=' ∉ b.name ∧ ',' ∉ fmt b.val := by
    intro a ha b hb _
    obtain ⟨p, hp, hpe⟩ := expand_binding_name_mem spec a ha b hb
    exact ⟨by rw [← hpe]; exact (hn p hp).1, by rw [← hpe]; exact (hn p hp).2, hfc b.val⟩
  have hne : ∀ a ∈ expand spec, a.filter (fun b => b.fromList) ≠ [] := by
    intro a ha hnil
    apply hlv
    rw [← expand_filter_names spec a ha, hnil]
    rfl
  have hrt : ∀ a ∈ expand spec, decodeCaseName (caseName fmt a) =
      (a.filter (fun b => b.fromList)).map (fun b => (b.name, fmt b.val)) :=
    fun a ha => decode_caseName fmt a (hne a ha) (hca a ha)
  refine ⟨hrt, ?_⟩
  intro a1 h1 a2 h2 heq
  have hdec := (hrt a1 h1).symm.trans ((congrArg decodeCaseName heq).trans (hrt a2 h2))
  have hvals : (a1.filter (fun b => b.fromList)).map (fun b => b.val) =
      (a2.filter (fun b => b.fromList)).map (fun b => b.val) := by
    apply List.map_injective_iff.2 hinj
    have h := congrArg (List.map Prod.snd) hdec
    simpa [List.map_map, Function.comp_def] using h
  exact expand_determined spec a1 h1 a2 h2 hvals

/-- Witness for C6 on a concrete boolean study: the round trip recovers the
assignment from the case name. -/
theorem case_naming_injective_witness :
    decodeCaseName (caseName bfmt [⟨['r'], true, true⟩]) = [(['r'], ['1'])] := by
  have h := (case_naming_injective bfmt bspec (by decide) (by decide) (by decide)
    (by decide)).1 [⟨['r'], true, true⟩] (by decide)
  simpa using h
